import Mathlib

/-!
# Family-Tree editor: shallow embedding of `src/app.js`

The entity store (`familyData` in `src/data.js`) is a record of a
`rootPersonIds` array and a `people` map.  JavaScript objects with
non-index string keys enumerate in insertion order, so `people` is
modelled as a `List Person` whose entries carry their own key in the
`id` field (`app.js` always writes `people[id] = {id, ...}`).

JavaScript truthiness matters in several places (`person.spouseId`,
`birthOrder || 999`, `birthOrder || 0`); it is modelled explicitly.
The legacy `buildGenerations` reads `familyData.rootPersonId`
(singular), a property the data files never define, so the store model
carries it as an `Option` that is `none` for every store the app can
build.

`renderTree` and the other DOM functions are presentation-only and are
not modelled.
-/

namespace FamilyApp

/-- A person record, as created by `addPerson` in `src/app.js`
(profile extras such as `maidenName` behave exactly like `name` under
every modelled operation and are omitted). -/
structure Person where
  id : String
  name : String
  parentIds : List String
  spouseId : Option String
  birthOrder : Option Int
deriving Repr, DecidableEq

/-- The entity store (`familyData`).  `rootPersonId` models the legacy
singular property read by `buildGenerations`/`isBloodRelative`; it is
absent (`none`) in `src/data.js`. -/
structure Store where
  rootPersonIds : List String
  people : List Person
  rootPersonId : Option String
deriving Repr, DecidableEq

/-- JavaScript truthiness of a nullable string (`null`/`undefined` and
`""` are falsy). -/
def truthyS : Option String → Bool
  | none => false
  | some s => !(s == "")

/-- `familyData.people[id] || null`. -/
def getPersonById (s : Store) (id : String) : Option Person :=
  s.people.find? (fun p => p.id == id)

/-- `familyData.people[id] = P` : replace in place if the key exists,
otherwise append (JS object key assignment keeps insertion order). -/
def setPerson (people : List Person) (P : Person) : List Person :=
  if people.any (fun q => q.id == P.id) then
    people.map (fun q => if q.id == P.id then P else q)
  else
    people ++ [P]

/-- Mutate the person stored under `id` in place (no-op when absent),
as JS field assignment on the object returned by `getPersonById`. -/
def mapPerson (people : List Person) (id : String) (f : Person → Person) :
    List Person :=
  people.map (fun q => if q.id == id then f q else q)

/-- The sort key `(p.birthOrder || 999)` used by `getChildren`
(`app.js` line 35): `undefined` and `0` are falsy and become `999`. -/
def sortKey (p : Person) : Int :=
  match p.birthOrder with
  | none => 999
  | some b => if b = 0 then 999 else b

/-- `(child.birthOrder || 0)` used by `addChild`/`addSibling`/
`addRootSibling` when computing the max existing order. -/
def boVal0 : Option Int → Int
  | none => 0
  | some b => b

/-- One step of a stable insertion sort: insert `p` after every
element whose key is `≤ sortKey p`.  Together with `sortAux` this
models `Array.prototype.sort` with the numeric comparator
`(a.birthOrder || 999) - (b.birthOrder || 999)` — ECMAScript sort is
stable, and any stable sort by the same key yields the same list. -/
def insertByKey (p : Person) : List Person → List Person
  | [] => [p]
  | q :: qs => if sortKey p < sortKey q then p :: q :: qs else q :: insertByKey p qs

def sortAux : List Person → List Person → List Person
  | [], acc => acc
  | p :: rest, acc => sortAux rest (insertByKey p acc)

def sortByBirthOrder (l : List Person) : List Person := sortAux l []

/-- `getChildren` (`app.js` lines 32-36): everyone whose `parentIds`
contains `personId`, sorted by the `birthOrder || 999` key. -/
def getChildren (s : Store) (personId : String) : List Person :=
  sortByBirthOrder (s.people.filter (fun p => p.parentIds.contains personId))

/-- `getSpouse` (`app.js` lines 22-26). -/
def getSpouse (s : Store) (personId : String) : Option Person :=
  match getPersonById s personId with
  | none => none
  | some p => if truthyS p.spouseId then getPersonById s (p.spouseId.getD "") else none

/-- `getDescendants` (`app.js` lines 609-619), fuel-bounded: the JS
recursion terminates exactly when the parent/child relation is
acyclic, in which case every chain has length at most the store size,
so fuel `s.people.length` reproduces it. -/
def getDescendantsFuel (s : Store) : Nat → String → List Person
  | 0, _ => []
  | fuel + 1, pid =>
      (getChildren s pid).flatMap (fun c => c :: getDescendantsFuel s fuel c.id)

def getDescendants (s : Store) (personId : String) : List Person :=
  getDescendantsFuel s s.people.length personId

/-- `getChildren` as invoked with the possibly-undefined legacy
`rootPersonId`: `parentIds.includes(undefined)` is false for every
person, so the `none` case yields no children. -/
def getChildrenO (s : Store) : Option String → List Person
  | none => []
  | some i => getChildren s i

/-- Inner loop of `buildGenerations`: push each child id not yet
visited and not already collected (`app.js` lines 107-114). -/
def addFreshIds (visited : List (Option String)) :
    List Person → List (Option String) → List (Option String)
  | [], acc => acc
  | c :: rest, acc =>
      if some c.id ∈ visited ∨ some c.id ∈ acc then addFreshIds visited rest acc
      else addFreshIds visited rest (acc ++ [some c.id])

def nextGenLoop (s : Store) (visited : List (Option String)) :
    List (Option String) → List (Option String) → List (Option String)
  | [], acc => acc
  | pid :: rest, acc => nextGenLoop s visited rest (addFreshIds visited (getChildrenO s pid) acc)

/-- The `while (currentGen.length > 0)` loop of `buildGenerations`
(`app.js` lines 101-117), fuel-bounded (each later generation consists
of ids of store members never seen before, so the JS loop runs at most
`people.length + 1` times). -/
def buildGenAux (s : Store) : Nat → List (Option String) → List (Option String) →
    List (List (Option String))
  | 0, _, _ => []
  | fuel + 1, visited, cur =>
      if cur.isEmpty then []
      else
        let visited' := visited ++ cur
        cur :: buildGenAux s fuel visited' (nextGenLoop s visited' cur [])

/-- `buildGenerations` (`app.js` lines 94-120).  Note the start value:
`[familyData.rootPersonId]` — the singular legacy property, not
`rootPersonIds`. -/
def buildGenerations (s : Store) : List (List (Option String)) :=
  buildGenAux s (s.people.length + 2) [] [s.rootPersonId]

/-- Little-endian decimal digits, fuel-bounded structural recursion
(fuel `n` always suffices since `n / 10 < n` for `n > 0`). -/
def decDigitsAux : Nat → Nat → List Nat
  | 0, _ => []
  | fuel + 1, n => if n = 0 then [] else n % 10 :: decDigitsAux fuel (n / 10)

def decDigits (n : Nat) : List Nat := decDigitsAux n n

/-- Decimal representation of a positive counter, as interpolated by
the template literal in `generateId`. -/
def natToStr (n : Nat) : String :=
  (((decDigits n).map (fun d => Char.ofNat (48 + d))).reverse).asString

/-- The prefix of the character list before the first space. -/
def firstTokenChars : List Char → List Char
  | [] => []
  | c :: rest => if c = ' ' then [] else c :: firstTokenChars rest

/-- `name.toLowerCase().split(' ')[0]` (`app.js` line 956): the first
space-separated token of the lower-cased name — equivalently, the
longest space-free prefix (an empty token when the name starts with a
space, the whole name when it has no space). -/
def firstToken (name : String) : String :=
  (firstTokenChars (name.data.map Char.toLower)).asString

def candidateId (base : String) (k : Nat) : String :=
  base ++ "-" ++ natToStr k

/-- The `while (familyData.people[`...`]) counter++` probe of
`generateId` (`app.js` lines 957-961), fuel-bounded; fuel
`people.length + 1` always suffices (pigeonhole over the distinct
candidate ids). -/
def generateIdAux (s : Store) (base : String) : Nat → Nat → String
  | 0, k => candidateId base k
  | fuel + 1, k =>
      if (getPersonById s (candidateId base k)).isSome then
        generateIdAux s base fuel (k + 1)
      else candidateId base k

/-- `generateId` (`app.js` lines 955-964). -/
def generateId (s : Store) (name : String) : String :=
  generateIdAux s (firstToken name) (s.people.length + 1) 1

/-- Record construction `{id, name, parentIds, spouseId, birthOrder}`. -/
def newPerson (id name : String) (parentIds : List String)
    (spouseId : Option String) (birthOrder : Option Int) : Person :=
  { id := id, name := name, parentIds := parentIds,
    spouseId := spouseId, birthOrder := birthOrder }

/-- `addPerson` (`app.js` lines 969-990); returns the new id and the
updated store.  The spouse back-link runs only when `spouseId` is
truthy, and only mutates an existing person. -/
def addPerson (s : Store) (name : String) (parentIds : List String)
    (spouseId : Option String) (birthOrder : Option Int) : String × Store :=
  (generateId s name,
   { s with people :=
      (if truthyS spouseId then
        mapPerson (setPerson s.people (newPerson (generateId s name) name parentIds spouseId birthOrder))
          (spouseId.getD "") (fun q => { q with spouseId := some (generateId s name) })
      else setPerson s.people (newPerson (generateId s name) name parentIds spouseId birthOrder)) })

/-- `addChild` (`app.js` lines 995-1010). -/
def addChild (s : Store) (parentId : String) (childName : String) :
    Option String × Store :=
  match getPersonById s parentId with
  | none => (none, s)
  | some parent =>
      let parentIds :=
        if truthyS parent.spouseId then [parentId, parent.spouseId.getD ""]
        else [parentId]
      let maxOrder := (getChildren s parentId).foldl
        (fun m c => max m (boVal0 c.birthOrder)) 0
      let r := addPerson s childName parentIds none (some (maxOrder + 1))
      (some r.1, r.2)

/-- `addSibling` (`app.js` lines 1015-1026). -/
def addSibling (s : Store) (personId : String) (siblingName : String) :
    Option String × Store :=
  match getPersonById s personId with
  | none => (none, s)
  | some person =>
      if person.parentIds.isEmpty then (none, s)
      else
        let parentId := person.parentIds.headD ""
        let maxOrder := (getChildren s parentId).foldl
          (fun m c => max m (boVal0 c.birthOrder)) 0
        let r := addPerson s siblingName person.parentIds none (some (maxOrder + 1))
        (some r.1, r.2)

/-- `addRootSibling` (`app.js` lines 1031-1056): the `personId`
argument is unused by the source; the new parentless person is
appended to `rootPersonIds`. -/
def addRootSibling (s : Store) (siblingName : String) : String × Store :=
  (generateId s siblingName,
   { s with
      people := setPerson s.people
        (newPerson (generateId s siblingName) siblingName [] none
          (some ((s.rootPersonIds.filterMap (fun i => getPersonById s i)).foldl
            (fun m p => max m (boVal0 p.birthOrder)) 0 + 1))),
      rootPersonIds := s.rootPersonIds ++ [generateId s siblingName] })

/-- `addSpouse` (`app.js` lines 1061-1066). -/
def addSpouse (s : Store) (personId : String) (spouseName : String) :
    Option String × Store :=
  match getPersonById s personId with
  | none => (none, s)
  | some person =>
      if truthyS person.spouseId then (none, s)
      else
        let r := addPerson s spouseName [] (some personId) none
        (some r.1, r.2)

/-- `deleteSpouse` (`app.js` lines 1071-1084): null the caller's
`spouseId` if the caller exists, then delete the entry stored under
`spouseId` if it exists (its own `spouseId` is nulled just before the
delete, which the delete makes unobservable).  No link check. -/
def deleteSpouse (s : Store) (personId : String) (spouseId : String) : Store :=
  let people1 := mapPerson s.people personId (fun q => { q with spouseId := none })
  { s with people := people1.filter (fun q => !(q.id == spouseId)) }

/-- The partial-field argument of `updatePerson` (`Object.assign`):
a present field overwrites, an absent one is kept.  The UI passes only
`{name}`, but the operation accepts any of the core fields. -/
structure PersonUpdates where
  name : Option String
  parentIds : Option (List String)
  spouseId : Option (Option String)
  birthOrder : Option (Option Int)
deriving Repr, DecidableEq

def applyUpdates (u : PersonUpdates) (p : Person) : Person :=
  { p with name := u.name.getD p.name,
           parentIds := u.parentIds.getD p.parentIds,
           spouseId := u.spouseId.getD p.spouseId,
           birthOrder := u.birthOrder.getD p.birthOrder }

/-- `updatePerson` (`app.js` lines 1089-1096). -/
def updatePerson (s : Store) (personId : String) (u : PersonUpdates) :
    Bool × Store :=
  match getPersonById s personId with
  | none => (false, s)
  | some _ => (true, { s with people := mapPerson s.people personId (applyUpdates u) })

/-- `removePerson` (`app.js` lines 1101-1127): unlink the partner,
strip the id from every `parentIds`, splice the first occurrence out
of `rootPersonIds`, delete the entry. -/
def removePerson (s : Store) (personId : String) : Bool × Store :=
  match getPersonById s personId with
  | none => (false, s)
  | some person =>
      let people1 :=
        if truthyS person.spouseId then
          mapPerson s.people (person.spouseId.getD "") (fun q => { q with spouseId := none })
        else s.people
      let people2 := people1.map
        (fun q => { q with parentIds := q.parentIds.filter (fun i => !(i == personId)) })
      (true, { s with people := people2.filter (fun q => !(q.id == personId)),
                      rootPersonIds := s.rootPersonIds.erase personId })

/-- The direct `delete familyData.people[d.id]` loop of the
delete-confirmation handler (`app.js` lines 652-655). -/
def deletePeople (s : Store) (ds : List Person) : Store :=
  { s with people := ds.foldl (fun ppl d => ppl.filter (fun q => !(q.id == d.id))) s.people }

/-- The branch-delete flow of `showDeleteConfirm` (`app.js` lines
651-659): collect descendants, delete each directly, then
`removePerson` on the root of the branch. -/
def branchDelete (s : Store) (personId : String) : Store :=
  (removePerson (deletePeople s (getDescendants s personId)) personId).2

/-- Spouse symmetry over the store members (spec §8 / invariant 2). -/
def SpouseSym (s : Store) : Prop :=
  ∀ a ∈ s.people, ∀ b ∈ s.people, (a.spouseId = some b.id ↔ b.spouseId = some a.id)

/-- No truthy `spouseId` dangles: it resolves to a store member. -/
def NoDanglingSpouse (s : Store) : Prop :=
  ∀ a ∈ s.people, truthyS a.spouseId = true →
    ∃ c ∈ s.people, some c.id = a.spouseId

/-- Basic store well-formedness the JS object representation gives for
free: keys are distinct, and no person has the empty id (app-generated
ids always contain a hyphen). -/
def WFStore (s : Store) : Prop :=
  (s.people.map (fun p => p.id)).Nodup ∧ ∀ p ∈ s.people, p.id ≠ ""

/-- One direction of spec invariant 3: every listed root id resolves
to a parentless person. -/
def RootsOk (s : Store) : Prop :=
  ∀ rid ∈ s.rootPersonIds, ∃ P, getPersonById s rid = some P ∧ P.parentIds = []

/-! ## Lookup helpers -/

theorem lookup_map_pres (g : Person → Person) {l : List Person} {i : String}
    (hg : ∀ q, (g q).id = q.id) :
    (l.map g).find? (fun q => q.id == i) = (l.find? (fun q => q.id == i)).map g := by
  induction l with
  | nil => rfl
  | cons q rest ih =>
      rw [List.map_cons]
      by_cases h : q.id = i
      · rw [List.find?_cons_of_pos _ (by simp [hg, h]),
          List.find?_cons_of_pos _ (by simp [h])]
        rfl
      · rw [List.find?_cons_of_neg _ (by simp [hg, h]),
          List.find?_cons_of_neg _ (by simp [h])]
        exact ih

theorem lookup_mapPerson (f : Person → Person) {l : List Person} {t : String} {i : String}
    (hf : ∀ q, (f q).id = q.id) :
    (mapPerson l t f).find? (fun q => q.id == i) =
      if i = t then (l.find? (fun q => q.id == i)).map f
      else l.find? (fun q => q.id == i) := by
  unfold mapPerson
  induction l with
  | nil => simp
  | cons q rest ih =>
      rw [List.map_cons]
      by_cases hq : q.id = t
      · rw [if_pos (by simp [hq])]
        by_cases hi : q.id = i
        · have hit : i = t := hi ▸ hq
          rw [List.find?_cons_of_pos _ (by simp [hf, hi]), if_pos hit,
            List.find?_cons_of_pos _ (by simp [hi])]
          rfl
        · rw [List.find?_cons_of_neg _ (by simp [hf, hi]), ih]
          by_cases hit : i = t
          · rw [if_pos hit, if_pos hit, List.find?_cons_of_neg _ (by simp [hi])]
          · rw [if_neg hit, if_neg hit, List.find?_cons_of_neg _ (by simp [hi])]
      · rw [if_neg (by simp [hq])]
        by_cases hi : q.id = i
        · have hit : ¬ i = t := fun h => hq (hi.symm ▸ h ▸ rfl)
          rw [List.find?_cons_of_pos _ (by simp [hi]), if_neg hit,
            List.find?_cons_of_pos _ (by simp [hi])]
        · rw [List.find?_cons_of_neg _ (by simp [hi]), ih]
          by_cases hit : i = t
          · rw [if_pos hit, if_pos hit, List.find?_cons_of_neg _ (by simp [hi])]
          · rw [if_neg hit, if_neg hit, List.find?_cons_of_neg _ (by simp [hi])]

theorem lookup_filter_keep {l : List Person} {pred : Person → Bool} {i : String}
    (h : ∀ q ∈ l, pred q = false → q.id ≠ i) :
    (l.filter pred).find? (fun q => q.id == i) = l.find? (fun q => q.id == i) := by
  induction l with
  | nil => rfl
  | cons q rest ih =>
      by_cases hp : pred q
      · rw [List.filter_cons_of_pos hp]
        by_cases hi : q.id = i
        · rw [List.find?_cons_of_pos _ (by simp [hi]),
            List.find?_cons_of_pos _ (by simp [hi])]
        · rw [List.find?_cons_of_neg _ (by simp [hi]),
            List.find?_cons_of_neg _ (by simp [hi])]
          exact ih (fun x hx => h x (List.mem_cons_of_mem _ hx))
      · have hp' : pred q = false := by simpa using hp
        have hi : q.id ≠ i := h q (List.mem_cons_self _ _) hp'
        rw [List.filter_cons_of_neg hp, List.find?_cons_of_neg _ (by simp [hi])]
        exact ih (fun x hx => h x (List.mem_cons_of_mem _ hx))

theorem lookup_filter_out {l : List Person} {pred : Person → Bool} {i : String}
    (h : ∀ q ∈ l, pred q = true → q.id ≠ i) :
    (l.filter pred).find? (fun q => q.id == i) = none := by
  rw [List.find?_eq_none]
  intro x hx
  have := List.mem_filter.mp hx
  simpa using h x this.1 this.2

theorem lookup_append_right {l : List Person} {P : Person} {i : String}
    (h : l.find? (fun q => q.id == i) = none) :
    (l ++ [P]).find? (fun q => q.id == i) = if P.id = i then some P else none := by
  rw [List.find?_append, h]
  by_cases hp : P.id = i
  · rw [if_pos hp, List.find?_cons_of_pos _ (by simp [hp])]
    rfl
  · rw [if_neg hp, List.find?_cons_of_neg _ (by simp [hp])]
    rfl

/-! ## Decimal representation and `generateId` -/

theorem digitChar_inj {d e : Nat} (hd : d < 10) (he : e < 10)
    (h : Char.ofNat (48 + d) = Char.ofNat (48 + e)) : d = e := by
  interval_cases d <;> interval_cases e <;> simp_all

theorem decDigitsAux_eq : ∀ (fuel n : Nat), n ≤ fuel →
    decDigitsAux fuel n = Nat.digits 10 n := by
  intro fuel
  induction fuel with
  | zero =>
      intro n h
      have : n = 0 := Nat.le_zero.mp h
      subst this
      simp [decDigitsAux]
  | succ fuel ih =>
      intro n h
      by_cases hn : n = 0
      · subst hn; simp [decDigitsAux]
      · have hpos : 0 < n := Nat.pos_of_ne_zero hn
        have hdiv : n / 10 < n := Nat.div_lt_self hpos (by norm_num)
        rw [decDigitsAux, if_neg hn, ih (n / 10) (by omega),
          Nat.digits_def' (by norm_num) hpos]

theorem decDigits_eq (n : Nat) : decDigits n = Nat.digits 10 n :=
  decDigitsAux_eq n n (le_refl n)

theorem natToStr_inj {m n : Nat} (h : natToStr m = natToStr n) : m = n := by
  have hdata : (((decDigits m).map (fun d => Char.ofNat (48 + d))).reverse) =
      (((decDigits n).map (fun d => Char.ofNat (48 + d))).reverse) :=
    congrArg String.data h
  have hmap := List.reverse_injective hdata
  rw [decDigits_eq, decDigits_eq] at hmap
  have hdig : Nat.digits 10 m = Nat.digits 10 n := by
    have aux : ∀ (l1 l2 : List Nat), (∀ x ∈ l1, x < 10) → (∀ x ∈ l2, x < 10) →
        l1.map (fun d => Char.ofNat (48 + d)) = l2.map (fun d => Char.ofNat (48 + d)) →
        l1 = l2 := by
      intro l1
      induction l1 with
      | nil => intro l2 _ _ he; cases l2 <;> simp_all
      | cons x xs ih =>
          intro l2 h1 h2 he
          cases l2 with
          | nil => simp_all
          | cons y ys =>
              simp only [List.map_cons, List.cons.injEq] at he
              have hx := h1 x (List.mem_cons_self _ _)
              have hy := h2 y (List.mem_cons_self _ _)
              have hxy := digitChar_inj hx hy he.1
              have := ih ys (fun z hz => h1 z (List.mem_cons_of_mem _ hz))
                (fun z hz => h2 z (List.mem_cons_of_mem _ hz)) he.2
              simp [hxy, this]
    exact aux _ _ (fun x hx => Nat.digits_lt_base (by norm_num) hx)
      (fun x hx => Nat.digits_lt_base (by norm_num) hx) hmap
  exact Nat.digits_inj_iff.mp hdig

theorem candidateId_inj {base : String} {j k : Nat}
    (h : candidateId base j = candidateId base k) : j = k := by
  unfold candidateId at h
  have hdata : (base ++ "-" ++ natToStr j).data = (base ++ "-" ++ natToStr k).data :=
    congrArg String.data h
  rw [String.data_append, String.data_append, String.data_append,
    String.data_append] at hdata
  have hcancel := List.append_cancel_left hdata
  apply natToStr_inj
  cases hj : natToStr j with
  | mk dj =>
      cases hk : natToStr k with
      | mk dk =>
          rw [hj, hk] at hcancel
          exact congrArg String.mk hcancel

/-- If the probe window contains a free candidate, `generateIdAux`
returns the first free candidate at or after the start counter. -/
theorem generateIdAux_spec (s : Store) (base : String) :
    ∀ fuel k, (∃ j, k ≤ j ∧ j < k + fuel ∧ getPersonById s (candidateId base j) = none) →
    ∃ m, generateIdAux s base fuel k = candidateId base m ∧ k ≤ m ∧
      getPersonById s (candidateId base m) = none ∧
      ∀ j, k ≤ j → j < m → (getPersonById s (candidateId base j)).isSome := by
  intro fuel
  induction fuel with
  | zero =>
      intro k ⟨j, hj1, hj2, _⟩
      omega
  | succ fuel ih =>
      intro k hex
      by_cases hk : (getPersonById s (candidateId base k)).isSome
      · obtain ⟨j, hj1, hj2, hj3⟩ := hex
        have hjk : j ≠ k := by
          intro h; rw [h] at hj3; rw [hj3] at hk; simp at hk
        obtain ⟨m, hm1, hm2, hm3, hm4⟩ := ih (k + 1) ⟨j, by omega, by omega, hj3⟩
        refine ⟨m, ?_, by omega, hm3, ?_⟩
        · simpa [generateIdAux, hk] using hm1
        · intro i hi1 hi2
          rcases Nat.eq_or_lt_of_le hi1 with h | h
          · exact h ▸ hk
          · exact hm4 i h hi2
      · have hfree : getPersonById s (candidateId base k) = none := by
          cases h : getPersonById s (candidateId base k)
          · rfl
          · rw [h] at hk; simp at hk
        refine ⟨k, ?_, le_refl k, hfree, fun j hj1 hj2 => absurd hj2 (Nat.not_lt.mpr hj1)⟩
        simp [generateIdAux, hfree]

/-- Pigeonhole: among the `people.length + 1` candidate ids starting
at counter 1, at least one is not a key of the store. -/
theorem exists_free_candidate (s : Store) (base : String) :
    ∃ j, 1 ≤ j ∧ j < 1 + (s.people.length + 1) ∧
      getPersonById s (candidateId base j) = none := by
  by_contra hall
  push_neg at hall
  have htaken : ∀ j, 1 ≤ j → j < s.people.length + 2 →
      candidateId base j ∈ s.people.map (fun p => p.id) := by
    intro j h1 h2
    have := hall j h1 (by omega)
    cases h : getPersonById s (candidateId base j) with
    | none => exact absurd h this
    | some P =>
        have hmem := List.mem_of_find?_eq_some h
        have hpred := List.find?_some h
        have hid : P.id = candidateId base j := by simpa using hpred
        rw [← hid]
        exact List.mem_map_of_mem _ hmem
  set cands := (List.range (s.people.length + 1)).map (fun i => candidateId base (i + 1)) with hc
  have hnodup : cands.Nodup := by
    refine List.Nodup.map ?_ (List.nodup_range _)
    intro a b hab
    have := candidateId_inj hab
    omega
  have hsub : cands.toFinset ⊆ (s.people.map (fun p => p.id)).toFinset := by
    intro x hx
    rw [List.mem_toFinset] at hx ⊢
    rw [hc, List.mem_map] at hx
    obtain ⟨i, hi, rfl⟩ := hx
    rw [List.mem_range] at hi
    exact htaken (i + 1) (by omega) (by omega)
  have h1 : cands.toFinset.card = s.people.length + 1 := by
    rw [List.toFinset_card_of_nodup hnodup, hc, List.length_map, List.length_range]
  have h2 := Finset.card_le_card hsub
  have h3 := List.toFinset_card_le (s.people.map (fun p => p.id))
  rw [List.length_map] at h3
  omega

/-- `generateId` returns `base-k` for the smallest `k ≥ 1` whose id is
not yet a key; in particular the result is absent from the store. -/
theorem generateId_spec (s : Store) (name : String) :
    ∃ k, 1 ≤ k ∧ generateId s name = candidateId (firstToken name) k ∧
      getPersonById s (generateId s name) = none ∧
      ∀ j, 1 ≤ j → j < k → (getPersonById s (candidateId (firstToken name) j)).isSome := by
  obtain ⟨m, hm1, hm2, hm3, hm4⟩ :=
    generateIdAux_spec s (firstToken name) (s.people.length + 1) 1
      (exists_free_candidate s (firstToken name))
  refine ⟨m, hm2, hm1, ?_, hm4⟩
  unfold generateId
  rw [hm1]
  exact hm3

theorem generateId_fresh (s : Store) (name : String) :
    getPersonById s (generateId s name) = none := by
  obtain ⟨k, _, _, h, _⟩ := generateId_spec s name
  exact h

/-! ## Stable sort lemmas for `getChildren` -/

def sortedByKey (l : List Person) : Prop :=
  l.Pairwise (fun a b => sortKey a ≤ sortKey b)

theorem insertByKey_perm (p : Person) (l : List Person) :
    (insertByKey p l).Perm (p :: l) := by
  induction l with
  | nil => exact List.Perm.refl _
  | cons q qs ih =>
      unfold insertByKey
      by_cases h : sortKey p < sortKey q
      · rw [if_pos h]
      · rw [if_neg h]
        exact (List.Perm.cons q ih).trans (List.Perm.swap p q qs)

theorem mem_insertByKey {p x : Person} {l : List Person} :
    x ∈ insertByKey p l ↔ x = p ∨ x ∈ l := by
  rw [(insertByKey_perm p l).mem_iff, List.mem_cons]

theorem insertByKey_sorted {p : Person} {l : List Person} (h : sortedByKey l) :
    sortedByKey (insertByKey p l) := by
  induction l with
  | nil => simp [insertByKey, sortedByKey]
  | cons q qs ih =>
      unfold insertByKey
      rcases List.pairwise_cons.mp h with ⟨hq, hqs⟩
      by_cases hlt : sortKey p < sortKey q
      · rw [if_pos hlt]
        refine List.pairwise_cons.mpr ⟨?_, h⟩
        intro b hb
        rcases List.mem_cons.mp hb with rfl | hb
        · exact le_of_lt hlt
        · exact le_trans (le_of_lt hlt) (hq b hb)
      · rw [if_neg hlt]
        refine List.pairwise_cons.mpr ⟨?_, ih hqs⟩
        intro b hb
        rcases mem_insertByKey.mp hb with rfl | hb
        · exact le_of_not_lt hlt
        · exact hq b hb

theorem insertByKey_filter {p : Person} {l : List Person} {k : Int}
    (h : sortedByKey l) :
    (insertByKey p l).filter (fun q => sortKey q == k) =
      if sortKey p == k then l.filter (fun q => sortKey q == k) ++ [p]
      else l.filter (fun q => sortKey q == k) := by
  induction l with
  | nil =>
      by_cases hp : sortKey p = k
      · simp [insertByKey, hp]
      · simp [insertByKey, hp]
  | cons q qs ih =>
      rcases List.pairwise_cons.mp h with ⟨hq, hqs⟩
      unfold insertByKey
      by_cases hlt : sortKey p < sortKey q
      · rw [if_pos hlt]
        by_cases hp : sortKey p = k
        · rw [if_pos (by simp [hp])]
          have hqk : ∀ x ∈ q :: qs, ¬ (sortKey x == k) = true := by
            intro x hx
            rcases List.mem_cons.mp hx with rfl | hx
            · simp; omega
            · have := hq x hx
              simp; omega
          have hqnil : (q :: qs).filter (fun q => sortKey q == k) = [] := by
            rw [List.filter_eq_nil_iff]
            exact hqk
          rw [List.filter_cons_of_pos (by simp [hp]), hqnil]
          rfl
        · rw [if_neg (by simp [hp]), List.filter_cons_of_neg (by simp [hp])]
      · rw [if_neg hlt]
        by_cases hqk : sortKey q = k
        · rw [List.filter_cons_of_pos (by simp [hqk]),
            List.filter_cons_of_pos (by simp [hqk]), ih hqs]
          by_cases hp : sortKey p = k
          · rw [if_pos (by simp [hp]), if_pos (by simp [hp])]
            simp
          · rw [if_neg (by simp [hp]), if_neg (by simp [hp])]
        · rw [List.filter_cons_of_neg (by simp [hqk]),
            List.filter_cons_of_neg (by simp [hqk]), ih hqs]

theorem sortAux_perm : ∀ (l acc : List Person), (sortAux l acc).Perm (l ++ acc) := by
  intro l
  induction l with
  | nil => intro acc; exact List.Perm.refl _
  | cons p rest ih =>
      intro acc
      have h1 := ih (insertByKey p acc)
      have h2 : (rest ++ insertByKey p acc).Perm (rest ++ (p :: acc)) :=
        List.Perm.append_left rest (insertByKey_perm p acc)
      have h3 : (rest ++ (p :: acc)).Perm (p :: (rest ++ acc)) :=
        (List.perm_middle).trans (List.Perm.refl _)
      exact ((h1.trans h2).trans h3).trans (List.Perm.refl _)

theorem sortAux_sorted : ∀ (l acc : List Person), sortedByKey acc →
    sortedByKey (sortAux l acc) := by
  intro l
  induction l with
  | nil => intro acc h; exact h
  | cons p rest ih => intro acc h; exact ih _ (insertByKey_sorted h)

theorem sortAux_filter : ∀ (l acc : List Person) (k : Int), sortedByKey acc →
    (sortAux l acc).filter (fun q => sortKey q == k) =
      acc.filter (fun q => sortKey q == k) ++ l.filter (fun q => sortKey q == k) := by
  intro l
  induction l with
  | nil => intro acc k _; simp [sortAux]
  | cons p rest ih =>
      intro acc k hacc
      show (sortAux rest (insertByKey p acc)).filter _ = _
      rw [ih (insertByKey p acc) k (insertByKey_sorted hacc), insertByKey_filter hacc]
      by_cases hp : sortKey p = k
      · rw [if_pos (by simp [hp]), List.filter_cons_of_pos (by simp [hp])]
        simp
      · rw [if_neg (by simp [hp]), List.filter_cons_of_neg (by simp [hp])]

theorem sortByBirthOrder_perm (l : List Person) : (sortByBirthOrder l).Perm l := by
  have := sortAux_perm l []
  simpa [sortByBirthOrder] using this

theorem sortByBirthOrder_sorted (l : List Person) : sortedByKey (sortByBirthOrder l) :=
  sortAux_sorted l [] (List.Pairwise.nil)

theorem sortByBirthOrder_filter (l : List Person) (k : Int) :
    (sortByBirthOrder l).filter (fun q => sortKey q == k) =
      l.filter (fun q => sortKey q == k) := by
  have := sortAux_filter l [] k (List.Pairwise.nil)
  simpa [sortByBirthOrder] using this

/-! ## `buildGenerations` dedup invariants -/

theorem addFreshIds_inv {visited : List (Option String)} :
    ∀ (cs : List Person) (acc : List (Option String)), acc.Nodup →
      (∀ x ∈ acc, x ∉ visited) →
      (addFreshIds visited cs acc).Nodup ∧
        ∀ x ∈ addFreshIds visited cs acc, x ∉ visited := by
  intro cs
  induction cs with
  | nil => intro acc h1 h2; exact ⟨h1, h2⟩
  | cons c rest ih =>
      intro acc h1 h2
      unfold addFreshIds
      by_cases hmem : some c.id ∈ visited ∨ some c.id ∈ acc
      · rw [if_pos hmem]
        exact ih acc h1 h2
      · rw [if_neg hmem]
        push_neg at hmem
        refine ih (acc ++ [some c.id]) ?_ ?_
        · rw [List.nodup_append]
          exact ⟨h1, List.nodup_singleton _, by
            intro x hx hy
            rw [List.mem_singleton] at hy
            exact hmem.2 (hy ▸ hx)⟩
        · intro x hx
          rcases List.mem_append.mp hx with hx | hx
          · exact h2 x hx
          · rw [List.mem_singleton] at hx
            exact hx ▸ hmem.1

theorem nextGenLoop_inv {s : Store} {visited : List (Option String)} :
    ∀ (cur acc : List (Option String)), acc.Nodup → (∀ x ∈ acc, x ∉ visited) →
      (nextGenLoop s visited cur acc).Nodup ∧
        ∀ x ∈ nextGenLoop s visited cur acc, x ∉ visited := by
  intro cur
  induction cur with
  | nil => intro acc h1 h2; exact ⟨h1, h2⟩
  | cons pid rest ih =>
      intro acc h1 h2
      unfold nextGenLoop
      obtain ⟨h1', h2'⟩ := addFreshIds_inv (getChildrenO s pid) acc h1 h2
      exact ih _ h1' h2'

theorem buildGenAux_nodup (s : Store) :
    ∀ (fuel : Nat) (visited cur : List (Option String)), cur.Nodup →
      (∀ x ∈ cur, x ∉ visited) →
      ((buildGenAux s fuel visited cur).flatten).Nodup ∧
        ∀ x ∈ (buildGenAux s fuel visited cur).flatten, x ∉ visited := by
  intro fuel
  induction fuel with
  | zero => intro visited cur _ _; simp [buildGenAux]
  | succ fuel ih =>
      intro visited cur h1 h2
      unfold buildGenAux
      by_cases hc : cur.isEmpty
      · rw [if_pos hc]; simp
      · rw [if_neg hc]
        simp only [List.flatten_cons]
        obtain ⟨hn1, hn2⟩ := nextGenLoop_inv cur [] (List.nodup_nil) (by simp)
        obtain ⟨hr1, hr2⟩ := ih (visited ++ cur) (nextGenLoop s (visited ++ cur) cur []) hn1 hn2
        constructor
        · rw [List.nodup_append]
          refine ⟨h1, hr1, ?_⟩
          intro x hx hy
          exact hr2 x hy (List.mem_append.mpr (Or.inr hx))
        · intro x hx
          rcases List.mem_append.mp hx with hx | hx
          · exact h2 x hx
          · intro hv
            exact hr2 x hx (List.mem_append.mpr (Or.inl hv))

/-! ## Frame lemmas for deletion -/

theorem delete_fold_filter : ∀ (ds ppl : List Person),
    ds.foldl (fun ppl d => ppl.filter (fun q => !(q.id == d.id))) ppl =
      ppl.filter (fun q => !(ds.any (fun d => q.id == d.id))) := by
  intro ds
  induction ds with
  | nil =>
      intro ppl
      simp
  | cons d rest ih =>
      intro ppl
      rw [List.foldl_cons, ih, List.filter_filter]
      apply List.filter_congr
      intro q _
      simp only [List.any_cons, Bool.not_or]
      rw [Bool.and_comm]

theorem deletePeople_people (s : Store) (ds : List Person) :
    (deletePeople s ds).people =
      s.people.filter (fun q => !(ds.any (fun d => q.id == d.id))) :=
  delete_fold_filter ds s.people

theorem lookup_deletePeople_mem {s : Store} {ds : List Person} {d : String}
    (hd : d ∈ ds.map (fun x => x.id)) :
    getPersonById (deletePeople s ds) d = none := by
  unfold getPersonById
  rw [deletePeople_people]
  apply lookup_filter_out
  intro q _ hq
  simp only [Bool.not_eq_true', List.any_eq_false] at hq
  intro hqd
  rw [List.mem_map] at hd
  obtain ⟨x, hx, hxd⟩ := hd
  exact absurd (by simp [hqd, hxd]) (hq x hx)

theorem lookup_deletePeople_not_mem {s : Store} {ds : List Person} {i : String}
    (hi : i ∉ ds.map (fun x => x.id)) :
    getPersonById (deletePeople s ds) i = getPersonById s i := by
  unfold getPersonById
  rw [deletePeople_people]
  apply lookup_filter_keep
  intro q _ hq hqi
  have hany : ds.any (fun d => q.id == d.id) = true := by
    revert hq; cases ds.any (fun d => q.id == d.id) <;> simp
  rw [List.any_eq_true] at hany
  obtain ⟨x, hx, hqx⟩ := hany
  apply hi
  rw [List.mem_map]
  exact ⟨x, hx, by rw [← eq_of_beq hqx, hqi]⟩

theorem deletePeople_roots (s : Store) (ds : List Person) :
    (deletePeople s ds).rootPersonIds = s.rootPersonIds := rfl

theorem removePerson_none {s : Store} {p : String}
    (h : getPersonById s p = none) : removePerson s p = (false, s) := by
  unfold removePerson
  rw [h]

/-- After a successful `removePerson p`, looking up any id other than
`p` sees the old person with `p` stripped from `parentIds`, and with
`spouseId` nulled exactly for `p`'s (truthy) spouse target. -/
theorem lookup_removePerson {s : Store} {p : String} {P : Person} {i : String}
    (h : getPersonById s p = some P) (hip : i ≠ p) :
    getPersonById (removePerson s p).2 i =
      (getPersonById s i).map (fun q =>
        { q with parentIds := q.parentIds.filter (fun x => !(x == p)),
                 spouseId := if truthyS P.spouseId && (some i == P.spouseId) then none
                             else q.spouseId }) := by
  unfold removePerson
  rw [h]
  unfold getPersonById
  rw [lookup_filter_keep (by
    intro q _ hq hqi
    have hqp : (q.id == p) = true := by
      revert hq; cases q.id == p <;> simp
    exact hip (hqi ▸ (eq_of_beq hqp)))]
  rw [lookup_map_pres
    (fun q => { q with parentIds := q.parentIds.filter (fun x => !(x == p)) })
    (fun q => rfl)]
  by_cases ht : truthyS P.spouseId = true
  · rw [if_pos ht, lookup_mapPerson (fun q => { q with spouseId := none }) (fun q => rfl)]
    obtain ⟨t, hts⟩ : ∃ t, P.spouseId = some t := by
      cases hsp : P.spouseId
      · rw [hsp] at ht; simp [truthyS] at ht
      · exact ⟨_, rfl⟩
    by_cases hit : i = t
    · rw [if_pos (by rw [hts, hit]; rfl)]
      have hcond : (truthyS P.spouseId && (some i == P.spouseId)) = true := by
        rw [ht, hts, hit]; simp
      rw [hcond, Option.map_map]
      congr 1
    · rw [if_neg (by rw [hts]; simpa using hit)]
      have hcond : (truthyS P.spouseId && (some i == P.spouseId)) = false := by
        rw [hts]; simp [hit]
      rw [hcond]
      congr 1
  · rw [if_neg ht]
    have hcond : (truthyS P.spouseId && (some i == P.spouseId)) = false := by
      have : truthyS P.spouseId = false := by
        revert ht; cases truthyS P.spouseId <;> simp
      rw [this]; simp
    rw [hcond]
    congr 1

theorem lookup_removePerson_self {s : Store} {p : String} {P : Person}
    (h : getPersonById s p = some P) :
    getPersonById (removePerson s p).2 p = none := by
  unfold removePerson
  rw [h]
  unfold getPersonById
  apply lookup_filter_out
  intro q _ hq
  have : (q.id == p) = false := by
    revert hq; cases q.id == p <;> simp
  simpa using this

theorem removePerson_roots {s : Store} {p : String} {P : Person}
    (h : getPersonById s p = some P) :
    (removePerson s p).2.rootPersonIds = s.rootPersonIds.erase p := by
  unfold removePerson
  rw [h]

theorem removePerson_true {s : Store} {p : String} {P : Person}
    (h : getPersonById s p = some P) : (removePerson s p).1 = true := by
  unfold removePerson
  rw [h]

theorem removePerson_parentIds_stripped {s : Store} {p : String} {P : Person}
    (h : getPersonById s p = some P) :
    ∀ q ∈ (removePerson s p).2.people, ¬ q.parentIds.contains p := by
  unfold removePerson
  rw [h]
  intro q hq
  have hq2 := (List.mem_filter.mp hq).1
  rw [List.mem_map] at hq2
  obtain ⟨q1, _, hq1⟩ := hq2
  rw [← hq1]
  simp only [List.contains_eq_any_beq, List.any_eq_true]
  rintro ⟨x, hx, hxp⟩
  have hmem := (List.mem_filter.mp hx).2
  rw [eq_of_beq hxp] at hmem
  simp at hmem

/-! ## `addPerson` lemmas -/

theorem setPerson_fresh (people : List Person) (P : Person)
    (h : people.find? (fun q => q.id == P.id) = none) :
    setPerson people P = people ++ [P] := by
  unfold setPerson
  rw [if_neg]
  intro hany
  rw [List.any_eq_true] at hany
  obtain ⟨x, hx, hxP⟩ := hany
  rw [List.find?_eq_none] at h
  exact h x hx hxP

theorem taken_ne_fresh {s : Store} {i : String} (name : String)
    (h : (getPersonById s i).isSome) : i ≠ generateId s name := by
  intro hne
  rw [hne, generateId_fresh] at h
  simp at h

theorem addPerson_fst (s : Store) (name : String) (pids : List String)
    (sp : Option String) (bo : Option Int) :
    (addPerson s name pids sp bo).1 = generateId s name := rfl

theorem addPerson_roots (s : Store) (name : String) (pids : List String)
    (sp : Option String) (bo : Option Int) :
    (addPerson s name pids sp bo).2.rootPersonIds = s.rootPersonIds := rfl

theorem lookup_addPerson_new (s : Store) (name : String) (pids : List String)
    (sp : Option String) (bo : Option Int)
    (hsp : truthyS sp = true → sp.getD "" ≠ generateId s name) :
    getPersonById (addPerson s name pids sp bo).2 (generateId s name) =
      some (newPerson (generateId s name) name pids sp bo) := by
  unfold addPerson
  unfold getPersonById
  rw [setPerson_fresh s.people (newPerson (generateId s name) name pids sp bo)
    (generateId_fresh s name)]
  by_cases ht : truthyS sp = true
  · rw [if_pos ht, lookup_mapPerson (fun q => { q with spouseId := some (generateId s name) })
      (fun q => rfl), if_neg (Ne.symm (hsp ht)),
      lookup_append_right (generateId_fresh s name)]
    simp [newPerson]
  · rw [if_neg ht, lookup_append_right (generateId_fresh s name)]
    simp [newPerson]

theorem lookup_addPerson_old (s : Store) (name : String) (pids : List String)
    (sp : Option String) (bo : Option Int) {i : String}
    (hi : i ≠ generateId s name) :
    getPersonById (addPerson s name pids sp bo).2 i =
      if truthyS sp && (some i == sp) then
        (getPersonById s i).map (fun q => { q with spouseId := some (generateId s name) })
      else getPersonById s i := by
  unfold addPerson
  unfold getPersonById
  rw [setPerson_fresh s.people (newPerson (generateId s name) name pids sp bo)
    (generateId_fresh s name)]
  have happ : (s.people ++
      [newPerson (generateId s name) name pids sp bo]).find? (fun q => q.id == i) =
      s.people.find? (fun q => q.id == i) := by
    rw [List.find?_append]
    have hnone : ([newPerson (generateId s name) name pids sp bo] : List Person).find?
        (fun q => q.id == i) = none := by
      rw [List.find?_eq_none]
      intro x hx
      rw [List.mem_singleton] at hx
      subst hx
      simpa [newPerson] using (Ne.symm hi)
    rw [hnone]
    cases s.people.find? (fun q => q.id == i) <;> rfl
  by_cases ht : truthyS sp = true
  · obtain ⟨t, hts⟩ : ∃ t, sp = some t := by
      cases hsp : sp
      · rw [hsp] at ht; simp [truthyS] at ht
      · exact ⟨_, rfl⟩
    rw [if_pos ht,
      lookup_mapPerson (fun q => { q with spouseId := some (generateId s name) })
        (fun q => rfl),
      happ, hts, Option.getD_some]
    by_cases hit : i = t
    · rw [if_pos hit, if_pos (by rw [hts] at ht; rw [ht, hit]; simp)]
    · rw [if_neg hit, if_neg (by simp [hit])]
  · have htf : truthyS sp = false := by
      revert ht; cases truthyS sp <;> simp
    rw [if_neg ht, happ, htf, Bool.false_and]
    simp

/-! ## Fold-max lemmas for birth-order computation -/

theorem foldl_max_init : ∀ (l : List Person) (a : Int),
    a ≤ l.foldl (fun m c => max m (boVal0 c.birthOrder)) a := by
  intro l
  induction l with
  | nil => intro a; exact le_refl a
  | cons c rest ih =>
      intro a
      exact le_trans (le_max_left a (boVal0 c.birthOrder)) (ih _)

theorem foldl_max_mem : ∀ (l : List Person) (a : Int) (c : Person), c ∈ l →
    boVal0 c.birthOrder ≤ l.foldl (fun m c => max m (boVal0 c.birthOrder)) a := by
  intro l
  induction l with
  | nil => intro a c hc; exact absurd hc (List.not_mem_nil c)
  | cons d rest ih =>
      intro a c hc
      rcases List.mem_cons.mp hc with rfl | hc
      · exact le_trans (le_max_right a (boVal0 c.birthOrder)) (foldl_max_init rest _)
      · exact ih _ c hc

theorem foldl_max_cases : ∀ (l : List Person) (a : Int),
    l.foldl (fun m c => max m (boVal0 c.birthOrder)) a = a ∨
      ∃ c ∈ l, l.foldl (fun m c => max m (boVal0 c.birthOrder)) a = boVal0 c.birthOrder := by
  intro l
  induction l with
  | nil => intro a; exact Or.inl rfl
  | cons d rest ih =>
      intro a
      rcases ih (max a (boVal0 d.birthOrder)) with h | ⟨c, hc, h⟩
      · rw [List.foldl_cons]
        rcases max_choice a (boVal0 d.birthOrder) with hm | hm
        · exact Or.inl (h.trans hm)
        · exact Or.inr ⟨d, List.mem_cons_self _ _, h.trans hm⟩
      · exact Or.inr ⟨c, List.mem_cons_of_mem _ hc, h⟩

instance : DecidablePred SpouseSym := by
  intro s; unfold SpouseSym; infer_instance

instance : DecidablePred NoDanglingSpouse := by
  intro s; unfold NoDanglingSpouse; infer_instance

instance : DecidablePred WFStore := by
  intro s; unfold WFStore; infer_instance

instance : DecidablePred RootsOk := by
  intro s; unfold RootsOk
  have : ∀ rid, Decidable (∃ P, getPersonById s rid = some P ∧ P.parentIds = []) := by
    intro rid
    cases h : getPersonById s rid with
    | none => exact .isFalse (by simp [h])
    | some P =>
        by_cases hp : P.parentIds = []
        · exact .isTrue ⟨P, by simp [h, hp]⟩
        · exact .isFalse (by simp [h, hp])
  infer_instance

/-! ## Spouse-symmetry helper lemmas -/

theorem spouseSym_subset {s t : Store} (hsub : ∀ q ∈ t.people, q ∈ s.people)
    (hsym : SpouseSym s) : SpouseSym t :=
  fun a ha b hb => hsym a (hsub a ha) b (hsub b hb)

theorem candidateId_ne_empty (base : String) (k : Nat) : candidateId base k ≠ "" := by
  intro h
  have hdata : (candidateId base k).data = ("" : String).data := congrArg String.data h
  unfold candidateId at hdata
  rw [String.data_append, String.data_append] at hdata
  have hlen := congrArg List.length hdata
  rw [List.length_append, List.length_append] at hlen
  have : ("-" : String).data.length = 1 := rfl
  rw [this] at hlen
  simp at hlen

theorem generateId_ne_empty (s : Store) (name : String) : generateId s name ≠ "" := by
  obtain ⟨k, _, hk2, _, _⟩ := generateId_spec s name
  rw [hk2]
  exact candidateId_ne_empty (firstToken name) k

theorem fresh_not_id {s : Store} (name : String) :
    ∀ q ∈ s.people, q.id ≠ generateId s name := by
  intro q hq he
  have hfresh := generateId_fresh s name
  unfold getPersonById at hfresh
  rw [List.find?_eq_none] at hfresh
  exact hfresh q hq (by simp [he])

/-- Membership in the store after a successful `removePerson`: every
survivor comes from a pre-state person with another id, same id, and
`spouseId` nulled exactly for the unlink target. -/
theorem mem_removePerson_char {s : Store} {p : String} {P : Person}
    (h : getPersonById s p = some P) {q' : Person}
    (hq' : q' ∈ (removePerson s p).2.people) :
    ∃ q ∈ s.people, q'.id = q.id ∧ q.id ≠ p ∧
      q'.spouseId = (if truthyS P.spouseId && (q.id == P.spouseId.getD "") then none
                     else q.spouseId) := by
  unfold removePerson at hq'
  rw [h] at hq'
  obtain ⟨hmem, hne⟩ := List.mem_filter.mp hq'
  rw [List.mem_map] at hmem
  obtain ⟨q1, hq1, hq1e⟩ := hmem
  have hq'id : q'.id = q1.id := by rw [← hq1e]
  have hq'sp : q'.spouseId = q1.spouseId := by rw [← hq1e]
  have hq'ne : q1.id ≠ p := by
    intro hqp
    rw [← hq1e] at hne
    simp [hqp] at hne
  by_cases ht : truthyS P.spouseId = true
  · rw [if_pos ht] at hq1
    rw [mapPerson, List.mem_map] at hq1
    obtain ⟨q0, hq0, hq0e⟩ := hq1
    by_cases hq0t : (q0.id == P.spouseId.getD "") = true
    · rw [if_pos hq0t] at hq0e
      refine ⟨q0, hq0, ?_, ?_, ?_⟩
      · rw [hq'id, ← hq0e]
      · intro hq0p
        apply hq'ne
        rw [← hq0e]
        exact hq0p
      · rw [hq'sp, ← hq0e, if_pos (by rw [ht, hq0t]; rfl)]
    · rw [if_neg hq0t] at hq0e
      refine ⟨q0, hq0, ?_, ?_, ?_⟩
      · rw [hq'id, ← hq0e]
      · rw [hq0e]; exact hq'ne
      · rw [hq'sp, ← hq0e, if_neg (by rw [ht]; simpa using hq0t)]
  · have htf : truthyS P.spouseId = false := by
      revert ht; cases truthyS P.spouseId <;> simp
    rw [if_neg ht] at hq1
    refine ⟨q1, hq1, hq'id, hq'ne, ?_⟩
    simp [hq'sp, htf]

/-- Under pre-state symmetry, no survivor still points at the person
being unlinked by `removePerson`. -/
theorem not_points_to_unlinked {s : Store} {p : String} {P a b : Person}
    (hsym : SpouseSym s) (hPmem : P ∈ s.people) (hPid : P.id = p)
    (hamem : a ∈ s.people) (hbmem : b ∈ s.people) (hbnep : b.id ≠ p)
    (hta : (truthyS P.spouseId && (a.id == P.spouseId.getD "")) = true) :
    b.spouseId ≠ some a.id := by
  intro hbs
  have ht : truthyS P.spouseId = true := by
    revert hta; cases truthyS P.spouseId <;> simp
  have hat : (a.id == P.spouseId.getD "") = true := by
    revert hta; cases (a.id == P.spouseId.getD "") <;> simp
  have hPs : P.spouseId = some a.id := by
    cases hsp : P.spouseId with
    | none => rw [hsp] at ht; simp [truthyS] at ht
    | some t0 =>
        rw [hsp, Option.getD_some] at hat
        exact congrArg some (eq_of_beq hat).symm
  have h1 := (hsym P hPmem a hamem).mp hPs
  have h2 := (hsym b hbmem a hamem).mp hbs
  rw [h1] at h2
  have hid : P.id = b.id := by
    injection h2.symm with h3
    exact h3.symm
  exact hbnep (by rw [← hid, hPid])

theorem spouseSym_removePerson (s : Store) (hsym : SpouseSym s) (p : String) :
    SpouseSym (removePerson s p).2 := by
  cases h : getPersonById s p with
  | none => rw [removePerson_none h]; exact hsym
  | some P =>
      have h2 : s.people.find? (fun q => q.id == p) = some P := h
      have hPmem : P ∈ s.people := List.mem_of_find?_eq_some h2
      have h3 : (P.id == p) = true := by
        have h4 := List.find?_some h2
        exact h4
      have hPid : P.id = p := eq_of_beq h3
      intro a' ha' b' hb'
      obtain ⟨a, hamem, haid, hanep, hasp⟩ := mem_removePerson_char h ha'
      obtain ⟨b, hbmem, hbid, hbnep, hbsp⟩ := mem_removePerson_char h hb'
      rw [haid, hbid, hasp, hbsp]
      by_cases hta : (truthyS P.spouseId && (a.id == P.spouseId.getD "")) = true
      · rw [if_pos hta]
        by_cases htb : (truthyS P.spouseId && (b.id == P.spouseId.getD "")) = true
        · rw [if_pos htb]
          simp
        · rw [if_neg htb]
          constructor
          · intro hc; exact absurd hc (by simp)
          · intro hbs
            exact absurd hbs (not_points_to_unlinked hsym hPmem hPid hamem hbmem hbnep hta)
      · rw [if_neg hta]
        by_cases htb : (truthyS P.spouseId && (b.id == P.spouseId.getD "")) = true
        · rw [if_pos htb]
          constructor
          · intro has
            exact absurd has (not_points_to_unlinked hsym hPmem hPid hbmem hamem hanep htb)
          · intro hc; exact absurd hc (by simp)
        · rw [if_neg htb]
          exact hsym a hamem b hbmem

theorem spouseSym_deletePeople (s : Store) (hsym : SpouseSym s) (ds : List Person) :
    SpouseSym (deletePeople s ds) := by
  apply spouseSym_subset _ hsym
  intro q hq
  rw [deletePeople_people] at hq
  exact (List.mem_filter.mp hq).1

theorem spouseSym_updatePerson (s : Store) (hsym : SpouseSym s) (p : String)
    (u : PersonUpdates) (hu : u.spouseId = none) :
    SpouseSym (updatePerson s p u).2 := by
  cases h : getPersonById s p with
  | none => unfold updatePerson; rw [h]; exact hsym
  | some P =>
      unfold updatePerson
      rw [h]
      intro a' ha' b' hb'
      have hmem : ∀ {q' : Person}, q' ∈ mapPerson s.people p (applyUpdates u) →
          ∃ q ∈ s.people, q'.id = q.id ∧ q'.spouseId = q.spouseId := by
        intro q' hq'
        rw [mapPerson, List.mem_map] at hq'
        obtain ⟨q, hq, hqe⟩ := hq'
        by_cases hqp : (q.id == p) = true
        · rw [if_pos hqp] at hqe
          refine ⟨q, hq, ?_, ?_⟩
          · rw [← hqe]
            rfl
          · rw [← hqe]
            show (applyUpdates u q).spouseId = q.spouseId
            unfold applyUpdates
            rw [hu]
            rfl
        · rw [if_neg hqp] at hqe
          rw [← hqe]
          exact ⟨q, hq, rfl, rfl⟩
      obtain ⟨a, ha, haid, hasp⟩ := hmem ha'
      obtain ⟨b, hb, hbid, hbsp⟩ := hmem hb'
      rw [haid, hbid, hasp, hbsp]
      exact hsym a ha b hb

theorem spouseSym_addSpouse (s : Store) (hwf : WFStore s)
    (hnd : NoDanglingSpouse s) (hsym : SpouseSym s) (pid n : String) :
    SpouseSym (addSpouse s pid n).2 := by
  cases h : getPersonById s pid with
  | none => unfold addSpouse; rw [h]; exact hsym
  | some P =>
      unfold addSpouse
      rw [h]
      by_cases ht : truthyS P.spouseId = true
      · simp only [ht, if_true]
        exact hsym
      · simp only [ht, Bool.false_eq_true, if_false]
        show SpouseSym (addPerson s n [] (some pid) none).2
        have h2 : s.people.find? (fun q => q.id == pid) = some P := h
        have hPmem : P ∈ s.people := List.mem_of_find?_eq_some h2
        have hPid : P.id = pid := by
          have h4 := List.find?_some h2
          exact eq_of_beq h4
        have hnidfresh : ∀ q ∈ s.people, q.id ≠ generateId s n := fresh_not_id n
        have hnidne : generateId s n ≠ "" := generateId_ne_empty s n
        have hpidfresh : pid ≠ generateId s n := by
          rw [← hPid]; exact hnidfresh P hPmem
        have hback : ∀ {x : Person}, x ∈ s.people → x.spouseId ≠ some pid := by
          intro x hx hxs
          have hps : x.spouseId = some P.id := by rw [hPid]; exact hxs
          have hb := (hsym x hx P hPmem).mp hps
          cases hPs : P.spouseId with
          | none => rw [hPs] at hb; simp at hb
          | some z =>
              rw [hPs] at hb ht
              injection hb with hz
              have hz0 : z = "" := by
                revert ht
                simp [truthyS]
              exact hwf.2 x hx (by rw [← hz, hz0])
        have hfreshpt : ∀ {x : Person}, x ∈ s.people →
            x.spouseId ≠ some (generateId s n) := by
          intro x hx hxs
          have htr : truthyS x.spouseId = true := by
            rw [hxs]; simp [truthyS, hnidne]
          obtain ⟨c, hc, hcid⟩ := hnd x hx htr
          rw [hxs] at hcid
          injection hcid with h5
          exact hnidfresh c hc h5
        by_cases hpe : pid = ""
        · have htp : truthyS (some pid) = false := by rw [hpe]; rfl
          have hpeople : (addPerson s n [] (some pid) none).2.people =
              s.people ++ [newPerson (generateId s n) n [] (some pid) none] := by
            show (if truthyS (some pid) = true then _ else _) = _
            rw [htp]
            simp only [Bool.false_eq_true, if_false]
            exact setPerson_fresh _ _ (generateId_fresh s n)
          intro a' ha' b' hb'
          rw [hpeople] at ha' hb'
          rcases List.mem_append.mp ha' with ha | ha
          · rcases List.mem_append.mp hb' with hb | hb
            · exact hsym a' ha b' hb
            · rw [List.mem_singleton] at hb
              subst hb
              constructor
              · intro hl
                exfalso
                exact hfreshpt ha hl
              · intro hr
                exfalso
                have hr' : some pid = some a'.id := hr
                injection hr' with h5
                exact hwf.2 a' ha (by rw [← h5, hpe])
          · rw [List.mem_singleton] at ha
            subst ha
            rcases List.mem_append.mp hb' with hb | hb
            · constructor
              · intro hl
                exfalso
                have hl' : some pid = some b'.id := hl
                injection hl' with h5
                exact hwf.2 b' hb (by rw [← h5, hpe])
              · intro hr
                exfalso
                exact hfreshpt hb hr
            · rw [List.mem_singleton] at hb
              subst hb
              exact Iff.rfl
        · have htp : truthyS (some pid) = true := by simp [truthyS, hpe]
          have hpeople : (addPerson s n [] (some pid) none).2.people =
              mapPerson (s.people ++ [newPerson (generateId s n) n [] (some pid) none])
                pid (fun q => { q with spouseId := some (generateId s n) }) := by
            show (if truthyS (some pid) = true then _ else _) = _
            rw [htp]
            simp only [if_true]
            rw [setPerson_fresh s.people (newPerson (generateId s n) n [] (some pid) none)
              (generateId_fresh s n)]
            rfl
          have hchar : ∀ {q' : Person},
              q' ∈ mapPerson (s.people ++ [newPerson (generateId s n) n [] (some pid) none])
                pid (fun q => { q with spouseId := some (generateId s n) }) →
              (∃ q ∈ s.people, q.id ≠ pid ∧ q'.id = q.id ∧ q'.spouseId = q.spouseId) ∨
              (q'.id = pid ∧ q'.spouseId = some (generateId s n)) ∨
              (q'.id = generateId s n ∧ q'.spouseId = some pid) := by
            intro q' hq'
            rw [mapPerson, List.mem_map] at hq'
            obtain ⟨q, hq, hqe⟩ := hq'
            rcases List.mem_append.mp hq with hqo | hqn
            · by_cases hqp : (q.id == pid) = true
              · rw [if_pos hqp] at hqe
                refine Or.inr (Or.inl ⟨?_, ?_⟩)
                · rw [← hqe]
                  exact eq_of_beq hqp
                · rw [← hqe]
              · rw [if_neg hqp] at hqe
                refine Or.inl ⟨q, hqo, by simpa using hqp, ?_, ?_⟩
                · rw [← hqe]
                · rw [← hqe]
            · rw [List.mem_singleton] at hqn
              subst hqn
              rw [if_neg (by
                simp only [newPerson]
                simp [Ne.symm hpidfresh])] at hqe
              refine Or.inr (Or.inr ⟨?_, ?_⟩)
              · rw [← hqe]; rfl
              · rw [← hqe]; rfl
          intro a' ha' b' hb'
          rw [hpeople] at ha' hb'
          rcases hchar ha' with ⟨a, ha, hanp, haid, hasp⟩ | ⟨haid, hasp⟩ | ⟨haid, hasp⟩
          · rcases hchar hb' with ⟨b, hb, hbnp, hbid, hbsp⟩ | ⟨hbid, hbsp⟩ | ⟨hbid, hbsp⟩
            · rw [haid, hbid, hasp, hbsp]
              exact hsym a ha b hb
            · rw [hasp, hbsp, hbid, haid]
              constructor
              · intro hl
                exact absurd hl (hback ha)
              · intro hr
                exfalso
                injection hr with h5
                exact hnidfresh a ha h5.symm
            · rw [hasp, hbsp, hbid, haid]
              constructor
              · intro hl
                exact absurd hl (hfreshpt ha)
              · intro hr
                exfalso
                injection hr with h5
                exact hanp h5.symm
          · rcases hchar hb' with ⟨b, hb, hbnp, hbid, hbsp⟩ | ⟨hbid, hbsp⟩ | ⟨hbid, hbsp⟩
            · rw [hasp, hbsp, hbid, haid]
              constructor
              · intro hl
                exfalso
                injection hl with h5
                exact hnidfresh b hb h5.symm
              · intro hr
                exact absurd hr (hback hb)
            · rw [hasp, hbsp, hbid, haid]
            · rw [hasp, hbsp, hbid, haid]
              exact iff_of_true rfl rfl
          · rcases hchar hb' with ⟨b, hb, hbnp, hbid, hbsp⟩ | ⟨hbid, hbsp⟩ | ⟨hbid, hbsp⟩
            · rw [hasp, hbsp, hbid, haid]
              constructor
              · intro hl
                exfalso
                injection hl with h5
                exact hbnp h5.symm
              · intro hr
                exact absurd hr (hfreshpt hb)
            · rw [hasp, hbsp, hbid, haid]
              exact iff_of_true rfl rfl
            · rw [hasp, hbsp, hbid, haid]

/-! ## Concrete fixtures -/

def mkP (i : String) (ps : List String) (sp : Option String) (bo : Option Int) : Person :=
  { id := i, name := i, parentIds := ps, spouseId := sp, birthOrder := bo }

/-- Two spouses `r`/`e`, their child `c`, grandchild `d`. -/
def famStore : Store :=
  { rootPersonIds := ["r"],
    people := [mkP "r" [] (some "e") (some 1), mkP "e" [] (some "r") none,
               mkP "c" ["r", "e"] none (some 1), mkP "d" ["c"] none (some 1)],
    rootPersonId := none }

/-- Parent `p` with a child lacking `birthOrder` and a child with
`birthOrder` 1000 (beyond the `999` sentinel). -/
def bo1000Store : Store :=
  { rootPersonIds := ["p"],
    people := [mkP "p" [] none (some 1), mkP "a" ["p"] none none,
               mkP "b" ["p"] none (some 1000)],
    rootPersonId := none }

/-- Two parentless roots and no legacy `rootPersonId` property. -/
def twoRootStore : Store :=
  { rootPersonIds := ["r1", "r2"],
    people := [mkP "r1" [] none (some 1), mkP "r2" [] none (some 2)],
    rootPersonId := none }

/-- A married couple `a`/`b` plus an unmarried `c`. -/
def coupleStore : Store :=
  { rootPersonIds := ["a"],
    people := [mkP "a" [] (some "b") (some 1), mkP "b" [] (some "a") none,
               mkP "c" [] none none],
    rootPersonId := none }

/-- A lone parentless root. -/
def loneStore : Store :=
  { rootPersonIds := ["r"], people := [mkP "r" [] none (some 1)],
    rootPersonId := none }

/-! ## Claims -/

/-- C3 counterexample: in `bo1000Store`, the child `a` has no
`birthOrder` and the child `b` has `birthOrder` 1000, yet
`getChildren` returns `a` *before* `b` (sort keys 999 < 1000),
refuting "every person lacking a birthOrder is placed after every
person that has one". -/
theorem getChildren_missing_birthOrder_not_last :
    (getChildren bo1000Store "p").map (fun q => q.id) = ["a", "b"] ∧
    (getPersonById bo1000Store "a").map (fun q => q.birthOrder) = some none ∧
    (getPersonById bo1000Store "b").map (fun q => q.birthOrder) = some (some 1000) ∧
    (∀ q ∈ getChildren bo1000Store "p", q.parentIds.contains "p") := by
  decide

/-- C3 (amended): `getChildren p` returns exactly the persons whose
`parentIds` contains `p`, sorted ascending by the key
`birthOrder || 999` (missing and zero birthOrder take the sentinel
999), stably: for every key value the subsequence with that key equals
the store-order filter, so insertion order is preserved among equal
keys.  Missing-birthOrder entries therefore sort after persons with
birthOrder below 999 but not after those at or above it. -/
theorem getChildren_sorted_stable (s : Store) (pid : String) :
    (∀ q, q ∈ getChildren s pid ↔ q ∈ s.people ∧ q.parentIds.contains pid) ∧
    (getChildren s pid).Pairwise (fun a b => sortKey a ≤ sortKey b) ∧
    (∀ k : Int, (getChildren s pid).filter (fun q => sortKey q == k) =
      (s.people.filter (fun q => q.parentIds.contains pid)).filter
        (fun q => sortKey q == k)) := by
  refine ⟨?_, sortByBirthOrder_sorted _, fun k => sortByBirthOrder_filter _ k⟩
  intro q
  rw [getChildren, (sortByBirthOrder_perm _).mem_iff, List.mem_filter]

/-- C4 counterexample: `buildGenerations` starts from the legacy
singular `familyData.rootPersonId` (undefined in the data model), not
from all root ids: with roots `r1`, `r2` it produces the single
generation `[undefined]` and places neither root. -/
theorem buildGenerations_ignores_roots :
    twoRootStore.rootPersonIds = ["r1", "r2"] ∧
    buildGenerations twoRootStore = [[(none : Option String)]] ∧
    (some "r1") ∉ (buildGenerations twoRootStore).flatten ∧
    (some "r2") ∉ (buildGenerations twoRootStore).flatten := by
  decide

/-- C4 (amended): the traversal starts from the single legacy
`rootPersonId` property rather than from all of `rootPersonIds`; the
deduplication half of the claim is real: for every store no id is ever
placed twice, i.e. in two different generations or twice within one
(the flattened generation list has no duplicates). -/
theorem buildGenerations_no_duplicate_placement (s : Store) :
    ((buildGenerations s).flatten).Nodup :=
  (buildGenAux_nodup s (s.people.length + 2) [] [s.rootPersonId]
    (List.nodup_singleton _) (by simp)).1

/-- C6: `generateId(name)` returns the lower-cased first
space-separated token of `name` followed by a hyphen and the smallest
positive integer `k` making the id a fresh key; the id `addPerson`
returns is that same id and was absent from the store before the
insertion. -/
theorem generateId_smallest_unused (s : Store) (name : String)
    (pids : List String) (sp : Option String) (bo : Option Int) :
    ∃ k, 1 ≤ k ∧
      generateId s name = firstToken name ++ "-" ++ natToStr k ∧
      getPersonById s (generateId s name) = none ∧
      (∀ j, 1 ≤ j → j < k →
        getPersonById s (firstToken name ++ "-" ++ natToStr j) ≠ none) ∧
      (addPerson s name pids sp bo).1 = generateId s name ∧
      getPersonById s (addPerson s name pids sp bo).1 = none := by
  obtain ⟨k, hk1, hk2, hk3, hk4⟩ := generateId_spec s name
  refine ⟨k, hk1, hk2, hk3, ?_, rfl, hk3⟩
  intro j hj1 hj2 hnone
  have hj := hk4 j hj1 hj2
  have hcand : candidateId (firstToken name) j =
      firstToken name ++ "-" ++ natToStr j := rfl
  rw [hcand, hnone] at hj
  simp at hj

/-- C10: `deleteSpouse(a, b)` performs no link check: `b` is deleted
whenever it exists (second conjunct needs no spousal relation between
`a` and `b`), `a`'s `spouseId` is nulled, everyone else is untouched,
and every surviving person keeps its `parentIds` unchanged (the
deleted id is never removed from remaining `parentIds`). -/
theorem deleteSpouse_no_link_check (s : Store) (a b : String) :
    getPersonById (deleteSpouse s a b) b = none ∧
    (a ≠ b → getPersonById (deleteSpouse s a b) a =
      (getPersonById s a).map (fun q => { q with spouseId := none })) ∧
    (∀ c, c ≠ a → c ≠ b → getPersonById (deleteSpouse s a b) c = getPersonById s c) ∧
    (∀ q ∈ (deleteSpouse s a b).people,
      ∃ q0 ∈ s.people, q.parentIds = q0.parentIds ∧ q.id = q0.id) := by
  refine ⟨?_, ?_, ?_, ?_⟩
  · unfold deleteSpouse getPersonById
    apply lookup_filter_out
    intro q _ hq
    intro hqb
    rw [hqb] at hq
    simp at hq
  · intro hab
    unfold deleteSpouse getPersonById
    rw [lookup_filter_keep (by
      intro q _ hq hqa
      have hqb : (q.id == b) = true := by
        revert hq; cases q.id == b <;> simp
      exact hab (hqa ▸ eq_of_beq hqb)),
      lookup_mapPerson (fun q => { q with spouseId := none }) (fun q => rfl),
      if_pos rfl]
  · intro c hca hcb
    unfold deleteSpouse getPersonById
    rw [lookup_filter_keep (by
      intro q _ hq hqc
      have hqb : (q.id == b) = true := by
        revert hq; cases q.id == b <;> simp
      exact hcb (hqc ▸ eq_of_beq hqb)),
      lookup_mapPerson (fun q => { q with spouseId := none }) (fun q => rfl),
      if_neg hca]
  · intro q hq
    have hq1 := (List.mem_filter.mp hq).1
    rw [mapPerson, List.mem_map] at hq1
    obtain ⟨q0, hq0, hq0e⟩ := hq1
    refine ⟨q0, hq0, ?_⟩
    rw [← hq0e]
    by_cases hqa : q0.id == a
    · rw [if_pos hqa]; exact ⟨rfl, rfl⟩
    · rw [if_neg hqa]; exact ⟨rfl, rfl⟩

/-- C10 witness: concrete application at `twoRootStore` with two
persons that are not spouses at all. -/
theorem deleteSpouse_no_link_check_witness :
    getPersonById (deleteSpouse twoRootStore "r1" "r2") "r2" = none ∧
    getPersonById (deleteSpouse twoRootStore "r1" "r2") "r1" =
      (getPersonById twoRootStore "r1").map (fun q => { q with spouseId := none }) :=
  ⟨(deleteSpouse_no_link_check twoRootStore "r1" "r2").1,
   (deleteSpouse_no_link_check twoRootStore "r1" "r2").2.1 (by decide)⟩

/-- C9 counterexample: `removePerson` also nulls the partner's
`spouseId`, so it is false that every other person keeps all fields
except `parentIds` unchanged: deleting `a` flips `b.spouseId` from
`some "a"` to `none`. -/
theorem removePerson_changes_partner_spouseId :
    (getPersonById coupleStore "b").map (fun q => q.spouseId) = some (some "a") ∧
    (getPersonById (removePerson coupleStore "a").2 "b").map (fun q => q.spouseId) =
      some none := by
  decide

/-- C9 (amended): `removePerson p` deletes only `p` from the people
map; every other person survives with `p` filtered out of `parentIds`,
with `spouseId` set to `none` exactly when that person is the target
of `p`'s truthy `spouseId`, and with every other field unchanged; `p`
is spliced out of `rootPersonIds` and nothing is ever appended to
it. -/
theorem removePerson_frame (s : Store) (p : String) (P : Person)
    (h : getPersonById s p = some P) :
    (removePerson s p).1 = true ∧
    getPersonById (removePerson s p).2 p = none ∧
    (removePerson s p).2.rootPersonIds = s.rootPersonIds.erase p ∧
    ∀ i, i ≠ p → getPersonById (removePerson s p).2 i =
      (getPersonById s i).map (fun q =>
        { q with parentIds := q.parentIds.filter (fun x => !(x == p)),
                 spouseId := if truthyS P.spouseId && (some i == P.spouseId) then none
                             else q.spouseId }) :=
  ⟨removePerson_true h, lookup_removePerson_self h, removePerson_roots h,
   fun _ hip => lookup_removePerson h hip⟩

/-- C9 witness: removing the child `c` from `famStore`, observed at
the grandchild `d` (which becomes parentless but is not made a
root). -/
theorem removePerson_frame_witness :
    (removePerson famStore "c").1 = true ∧
    getPersonById (removePerson famStore "c").2 "c" = none ∧
    (removePerson famStore "c").2.rootPersonIds = famStore.rootPersonIds.erase "c" ∧
    getPersonById (removePerson famStore "c").2 "d" =
      (getPersonById famStore "d").map (fun q =>
        { q with parentIds := q.parentIds.filter (fun x => !(x == "c")),
                 spouseId := if truthyS (mkP "c" ["r", "e"] none (some 1)).spouseId &&
                     (some "d" == (mkP "c" ["r", "e"] none (some 1)).spouseId) then none
                   else q.spouseId }) := by
  have H := removePerson_frame famStore "c" (mkP "c" ["r", "e"] none (some 1)) (by decide)
  exact ⟨H.1, H.2.1, H.2.2.1, H.2.2.2 "d" (by decide)⟩

/-- C2: after the branch-delete flow (delete every collected
descendant directly, then `removePerson p`), no descendant id and not
`p` itself resolves, and no surviving person's `parentIds` contains
`p`.  The hypotheses are the flow's presuppositions: `p` is in the
store, and `p` is not its own descendant (on a cyclic store the JS
recursion in `getDescendants` would not return at all). -/
theorem branchDelete_complete (s : Store) (p : String) (P : Person)
    (h : getPersonById s p = some P)
    (hp : p ∉ (getDescendants s p).map (fun d => d.id)) :
    (∀ d ∈ (getDescendants s p).map (fun d => d.id),
      getPersonById (branchDelete s p) d = none) ∧
    getPersonById (branchDelete s p) p = none ∧
    (∀ q ∈ (branchDelete s p).people, ¬ q.parentIds.contains p) := by
  have h1 : getPersonById (deletePeople s (getDescendants s p)) p = some P := by
    rw [lookup_deletePeople_not_mem hp]; exact h
  refine ⟨?_, ?_, ?_⟩
  · intro d hd
    have hdp : d ≠ p := fun hdp => hp (hdp ▸ hd)
    unfold branchDelete
    rw [lookup_removePerson h1 hdp, lookup_deletePeople_mem hd]
    rfl
  · exact lookup_removePerson_self h1
  · exact removePerson_parentIds_stripped h1

/-- C2 witness: branch-deleting the root `r` of `famStore` (whose
descendant list is `[c, d]`). -/
theorem branchDelete_complete_witness :
    getPersonById (branchDelete famStore "r") "c" = none ∧
    getPersonById (branchDelete famStore "r") "d" = none ∧
    getPersonById (branchDelete famStore "r") "r" = none ∧
    (∀ q ∈ (branchDelete famStore "r").people, ¬ q.parentIds.contains "r") := by
  have H := branchDelete_complete famStore "r" (mkP "r" [] (some "e") (some 1))
    (by decide) (by decide)
  exact ⟨H.1 "c" (by decide), H.1 "d" (by decide), H.2.1, H.2.2⟩

/-- C8: `addSpouse` is a total function (the embedding never throws);
it returns `null` with the store unchanged when `personId` is unknown
or already has a (truthy) spouse, and otherwise creates a parentless
person linked on both sides.  The success case assumes the non-empty
id every app-created person has (`personId = ""` is falsy in the JS
back-link guard). -/
theorem addSpouse_spec (s : Store) (pid spouseName : String) :
    (getPersonById s pid = none → addSpouse s pid spouseName = (none, s)) ∧
    (∀ P, getPersonById s pid = some P → truthyS P.spouseId = true →
      addSpouse s pid spouseName = (none, s)) ∧
    (∀ P, getPersonById s pid = some P → truthyS P.spouseId = false → pid ≠ "" →
      addSpouse s pid spouseName =
        (some (generateId s spouseName), (addPerson s spouseName [] (some pid) none).2) ∧
      getPersonById (addSpouse s pid spouseName).2 (generateId s spouseName) =
        some (newPerson (generateId s spouseName) spouseName [] (some pid) none) ∧
      getPersonById (addSpouse s pid spouseName).2 pid =
        some { P with spouseId := some (generateId s spouseName) }) := by
  refine ⟨?_, ?_, ?_⟩
  · intro h
    unfold addSpouse
    rw [h]
  · intro P h ht
    unfold addSpouse
    rw [h]
    simp [ht]
  · intro P h ht hpne
    have hsome : (getPersonById s pid).isSome = true := by rw [h]; rfl
    have hfresh : pid ≠ generateId s spouseName := taken_ne_fresh spouseName hsome
    have heq : addSpouse s pid spouseName =
        (some (generateId s spouseName), (addPerson s spouseName [] (some pid) none).2) := by
      unfold addSpouse
      rw [h]
      simp [ht]
      rfl
    refine ⟨heq, ?_, ?_⟩
    · rw [heq]
      exact lookup_addPerson_new s spouseName [] (some pid) none (fun _ => hfresh)
    · rw [heq]
      show getPersonById (addPerson s spouseName [] (some pid) none).2 pid = _
      rw [lookup_addPerson_old s spouseName [] (some pid) none hfresh,
        if_pos (by simp [truthyS, hpne]), h]
      rfl

/-- C8 witness: adding a spouse to the lone unmarried root of
`loneStore`. -/
theorem addSpouse_spec_witness :
    addSpouse loneStore "r" "Eve" =
      (some (generateId loneStore "Eve"), (addPerson loneStore "Eve" [] (some "r") none).2) ∧
    getPersonById (addSpouse loneStore "r" "Eve").2 (generateId loneStore "Eve") =
      some (newPerson (generateId loneStore "Eve") "Eve" [] (some "r") none) ∧
    getPersonById (addSpouse loneStore "r" "Eve").2 "r" =
      some { mkP "r" [] none (some 1) with spouseId := some (generateId loneStore "Eve") } :=
  (addSpouse_spec loneStore "r" "Eve").2.2 (mkP "r" [] none (some 1))
    (by decide) (by decide) (by decide)

/-- C7: for an existing parent `p`, `addChild` creates a child whose
`parentIds` is `[p]` plus `p`'s spouse exactly when the spouse link is
truthy, and whose `birthOrder` is one greater than the maximum
`birthOrder` among `p`'s existing children (1 with no children);
unknown parents yield `null`.  The birth-order hypothesis states the
well-formedness every app-created child satisfies: existing children
carry a defined `birthOrder ≥ 1` (the code reads `birthOrder || 0`, so
a negative or missing value would fall back to 0). -/
theorem addChild_spec (s : Store) (p childName : String) :
    (getPersonById s p = none → addChild s p childName = (none, s)) ∧
    (∀ P, getPersonById s p = some P →
      (∀ c ∈ getChildren s p, c.birthOrder ≠ none ∧ 1 ≤ boVal0 c.birthOrder) →
      ∃ m, addChild s p childName =
          (some (generateId s childName), (addPerson s childName
            (if truthyS P.spouseId then [p, P.spouseId.getD ""] else [p])
            none (some m)).2) ∧
        getPersonById (addChild s p childName).2 (generateId s childName) =
          some (newPerson (generateId s childName) childName
            (if truthyS P.spouseId then [p, P.spouseId.getD ""] else [p])
            none (some m)) ∧
        (getChildren s p = [] → m = 1) ∧
        (∀ c ∈ getChildren s p, ∀ b, c.birthOrder = some b → b < m) ∧
        (getChildren s p ≠ [] → ∃ c ∈ getChildren s p, c.birthOrder = some (m - 1))) := by
  constructor
  · intro h
    unfold addChild
    rw [h]
  · intro P h hbo
    refine ⟨(getChildren s p).foldl (fun m c => max m (boVal0 c.birthOrder)) 0 + 1,
      ?_, ?_, ?_, ?_, ?_⟩
    · unfold addChild
      rw [h]
      rfl
    · have heq : addChild s p childName =
          (some (generateId s childName), (addPerson s childName
            (if truthyS P.spouseId then [p, P.spouseId.getD ""] else [p]) none
            (some ((getChildren s p).foldl (fun m c => max m (boVal0 c.birthOrder)) 0 + 1))).2) := by
        unfold addChild
        rw [h]
        rfl
      rw [heq]
      exact lookup_addPerson_new s childName _ none _ (by intro htr; simp [truthyS] at htr)
    · intro hempty
      rw [hempty]
      rfl
    · intro c hc b hb
      have hle := foldl_max_mem (getChildren s p) 0 c hc
      rw [hb] at hle
      have : boVal0 (some b) = b := rfl
      rw [this] at hle
      omega
    · intro hne
      rcases foldl_max_cases (getChildren s p) 0 with hz | ⟨c, hc, hcm⟩
      · exfalso
        obtain ⟨c0, hc0⟩ := List.exists_mem_of_ne_nil _ hne
        have h1 := (hbo c0 hc0).2
        have h2 := foldl_max_mem (getChildren s p) 0 c0 hc0
        omega
      · refine ⟨c, hc, ?_⟩
        obtain ⟨hcn, hc1⟩ := hbo c hc
        cases hb : c.birthOrder with
        | none => exact absurd hb hcn
        | some b =>
            rw [hb] at hcm
            have : boVal0 (some b) = b := rfl
            rw [this] at hcm
            have : (getChildren s p).foldl (fun m c => max m (boVal0 c.birthOrder)) 0 + 1 - 1 = b := by
              omega
            rw [this]

/-- C7 witness: adding a child to `c` in `famStore`, whose one
existing child `d` has birth order 1; the new child gets order 2 and
only parent `c` (no spouse). -/
theorem addChild_spec_witness :
    ∃ m, addChild famStore "c" "Zed" =
        (some (generateId famStore "Zed"), (addPerson famStore "Zed"
          (if truthyS (mkP "c" ["r", "e"] none (some 1)).spouseId then
            ["c", (mkP "c" ["r", "e"] none (some 1)).spouseId.getD ""] else ["c"])
          none (some m)).2) ∧
      getPersonById (addChild famStore "c" "Zed").2 (generateId famStore "Zed") =
        some (newPerson (generateId famStore "Zed") "Zed"
          (if truthyS (mkP "c" ["r", "e"] none (some 1)).spouseId then
            ["c", (mkP "c" ["r", "e"] none (some 1)).spouseId.getD ""] else ["c"])
          none (some m)) ∧
      (getChildren famStore "c" = [] → m = 1) ∧
      (∀ c ∈ getChildren famStore "c", ∀ b, c.birthOrder = some b → b < m) ∧
      (getChildren famStore "c" ≠ [] →
        ∃ c ∈ getChildren famStore "c", c.birthOrder = some (m - 1)) :=
  (addChild_spec famStore "c" "Zed").2 (mkP "c" ["r", "e"] none (some 1))
    (by decide) (by decide)

/-- C5 counterexample: `addSpouse` creates a parentless person that is
not appended to `rootPersonIds`, refuting the biconditional "parentIds
empty iff listed as a root". -/
theorem addSpouse_creates_parentless_nonroot :
    (getPersonById (addSpouse loneStore "r" "Eve").2 "eve-1").map (fun q => q.parentIds) =
      some [] ∧
    "eve-1" ∉ (addSpouse loneStore "r" "Eve").2.rootPersonIds := by
  decide

theorem rootsOk_addPerson (s : Store) (h : RootsOk s) (name : String)
    (pids : List String) (sp : Option String) (bo : Option Int) :
    RootsOk (addPerson s name pids sp bo).2 := by
  intro rid hrid
  rw [addPerson_roots] at hrid
  obtain ⟨P, hP, hPp⟩ := h rid hrid
  have hne : rid ≠ generateId s name := taken_ne_fresh name (by rw [hP]; rfl)
  rw [lookup_addPerson_old s name pids sp bo hne]
  by_cases hc : (truthyS sp && (some rid == sp)) = true
  · rw [if_pos hc, hP]
    exact ⟨_, rfl, hPp⟩
  · rw [if_neg hc]
    exact ⟨P, hP, hPp⟩

/-- C5 (amended): one direction survives every add/remove operation:
each id in `rootPersonIds` keeps resolving to a parentless person
(for `removePerson` given a duplicate-free root list).  The converse
direction is the refuted one: parentless persons (spouses) need not be
roots. -/
theorem roots_resolve_parentless (s : Store) (h : RootsOk s) :
    (∀ name pids sp bo, RootsOk (addPerson s name pids sp bo).2) ∧
    (∀ pid name, RootsOk (addChild s pid name).2) ∧
    (∀ pid name, RootsOk (addSibling s pid name).2) ∧
    (∀ name, RootsOk (addRootSibling s name).2) ∧
    (∀ pid name, RootsOk (addSpouse s pid name).2) ∧
    (∀ p, s.rootPersonIds.Nodup → RootsOk (removePerson s p).2) := by
  refine ⟨fun name pids sp bo => rootsOk_addPerson s h name pids sp bo,
    ?_, ?_, ?_, ?_, ?_⟩
  · intro pid name
    cases hP : getPersonById s pid with
    | none =>
        unfold addChild
        rw [hP]
        exact h
    | some parent =>
        unfold addChild
        rw [hP]
        exact rootsOk_addPerson s h name _ _ _
  · intro pid name
    cases hP : getPersonById s pid with
    | none =>
        unfold addSibling
        rw [hP]
        exact h
    | some person =>
        unfold addSibling
        rw [hP]
        by_cases he : person.parentIds.isEmpty
        · simp only [he, if_true]
          exact h
        · simp only [he, Bool.false_eq_true, if_false]
          exact rootsOk_addPerson s h name _ _ _
  · intro name
    intro rid hrid
    have hroots : (addRootSibling s name).2.rootPersonIds =
        s.rootPersonIds ++ [generateId s name] := rfl
    rw [hroots] at hrid
    have hpeople : (addRootSibling s name).2.people =
        s.people ++ [newPerson (generateId s name) name [] none
          (some ((s.rootPersonIds.filterMap (fun i => getPersonById s i)).foldl
            (fun m p => max m (boVal0 p.birthOrder)) 0 + 1))] := by
      show setPerson _ _ = _
      exact setPerson_fresh _ _ (generateId_fresh s name)
    rcases List.mem_append.mp hrid with hold | hnew
    · obtain ⟨P, hP, hPp⟩ := h rid hold
      refine ⟨P, ?_, hPp⟩
      unfold getPersonById
      rw [hpeople, List.find?_append]
      unfold getPersonById at hP
      rw [hP]
      rfl
    · rw [List.mem_singleton] at hnew
      subst hnew
      have hlook : getPersonById (addRootSibling s name).2 (generateId s name) =
          some (newPerson (generateId s name) name [] none
            (some ((s.rootPersonIds.filterMap (fun i => getPersonById s i)).foldl
              (fun m p => max m (boVal0 p.birthOrder)) 0 + 1))) := by
        unfold getPersonById
        rw [hpeople, lookup_append_right (generateId_fresh s name)]
        simp only [newPerson, if_pos]
        rfl
      exact ⟨_, hlook, rfl⟩
  · intro pid name
    cases hP : getPersonById s pid with
    | none =>
        unfold addSpouse
        rw [hP]
        exact h
    | some person =>
        unfold addSpouse
        rw [hP]
        by_cases ht : truthyS person.spouseId = true
        · simp only [ht, if_true]
          exact h
        · simp only [ht, Bool.false_eq_true, if_false]
          exact rootsOk_addPerson s h name _ _ _
  · intro p hnodup
    cases hP : getPersonById s p with
    | none =>
        rw [removePerson_none hP]
        exact h
    | some P =>
        intro rid hrid
        rw [removePerson_roots hP] at hrid
        have hne : rid ≠ p := by
          intro hrp
          subst hrp
          exact hnodup.not_mem_erase hrid
        obtain ⟨P0, hP0, hP0p⟩ := h rid (List.mem_of_mem_erase hrid)
        rw [lookup_removePerson hP hne, hP0]
        refine ⟨_, rfl, ?_⟩
        show P0.parentIds.filter _ = []
        rw [hP0p]
        rfl

/-- C5 witness: the preserved direction applied to `famStore` for
`addSpouse` and `removePerson`. -/
theorem roots_resolve_parentless_witness :
    RootsOk (addSpouse famStore "c" "Zoe").2 ∧
    RootsOk (removePerson famStore "r").2 :=
  ⟨(roots_resolve_parentless famStore (by decide)).2.2.2.2.1 "c" "Zoe",
   (roots_resolve_parentless famStore (by decide)).2.2.2.2.2 "r" (by decide)⟩

/-- C1 counterexample: symmetry is not an invariant of "any update
operation": `updatePerson` shallow-merges arbitrary fields, and an
update carrying a `spouseId` makes `a` point at `c` while `b` still
points at `a`, breaking the biconditional. -/
theorem updatePerson_breaks_spouse_symmetry :
    SpouseSym coupleStore ∧
    ¬ SpouseSym (updatePerson coupleStore "a"
      { name := none, parentIds := none, spouseId := some (some "c"),
        birthOrder := none }).2 := by
  decide

/-- C1 (amended): the symmetry biconditional over store members is
preserved by `removePerson`, by the branch-delete flow, and by
`updatePerson` whenever the update does not carry a `spouseId` field;
`addSpouse` preserves it under the additional assumption that no
truthy `spouseId` dangles (a dangling pointer could collide with the
freshly generated id and come alive asymmetric). -/
theorem spouse_symmetry_preserved (s : Store) (hwf : WFStore s) (hsym : SpouseSym s) :
    (∀ p, SpouseSym (removePerson s p).2) ∧
    (∀ p, SpouseSym (branchDelete s p)) ∧
    (∀ p u, u.spouseId = none → SpouseSym (updatePerson s p u).2) ∧
    (∀ p n, NoDanglingSpouse s → SpouseSym (addSpouse s p n).2) :=
  ⟨fun p => spouseSym_removePerson s hsym p,
   fun p => spouseSym_removePerson _ (spouseSym_deletePeople s hsym _) p,
   fun p u hu => spouseSym_updatePerson s hsym p u hu,
   fun p n hnd => spouseSym_addSpouse s hwf hnd hsym p n⟩

/-- C1 witness: the preserved cases applied to the concrete
`famStore`. -/
theorem spouse_symmetry_preserved_witness :
    SpouseSym (removePerson famStore "r").2 ∧
    SpouseSym (branchDelete famStore "r") ∧
    SpouseSym (updatePerson famStore "c"
      { name := some "Carl", parentIds := none, spouseId := none,
        birthOrder := none }).2 ∧
    SpouseSym (addSpouse famStore "c" "Zoe").2 :=
  ⟨(spouse_symmetry_preserved famStore (by decide) (by decide)).1 "r",
   (spouse_symmetry_preserved famStore (by decide) (by decide)).2.1 "r",
   (spouse_symmetry_preserved famStore (by decide) (by decide)).2.2.1 "c"
     { name := some "Carl", parentIds := none, spouseId := none, birthOrder := none } rfl,
   (spouse_symmetry_preserved famStore (by decide) (by decide)).2.2.2 "c" "Zoe" (by decide)⟩

end FamilyApp
